import Mathlib

/-!
Shallow embedding of the slice-utility library (package `util` of
next-trace/scg-support) and proofs about its operations.

A Go slice value is modelled as `Option (List α)`: `none` is the nil
("absent") slice and `some l` a non-nil slice holding the elements `l`
(`some []` is the non-nil empty slice).  `append` on a Go slice always
yields a non-nil slice, which the model mirrors with `goAppend`.
-/

namespace ScgSupport

/-- A Go slice value: `none` is nil/absent, `some l` a present slice. -/
abbrev GoSlice (α : Type) := Option (List α)

/-- The elements of a Go slice (nil has none). -/
def toList (s : GoSlice α) : List α := s.getD []

/-- `len` of a Go slice (`len(nil) = 0`). -/
def goLen (s : GoSlice α) : Nat := (toList s).length

/-- Go's `append(s, x)`: always yields a non-nil slice. -/
def goAppend (s : GoSlice α) (x : α) : GoSlice α := some (toList s ++ [x])

/-- Repeated `goAppend`, the net effect of an append loop. -/
def goAppendList (s : GoSlice α) : List α → GoSlice α
  | [] => s
  | x :: xs => goAppendList (goAppend s x) xs

/-- `slices.Clone`: nil stays nil, a present slice is copied (value-equal). -/
def goClone : GoSlice α → GoSlice α
  | none => none
  | some l => some l

/-- Index-aware list filter: the elements (with their positions, counted
from `i`) satisfying the predicate, in order. -/
def filterIdx (p : α → Nat → Bool) : List α → Nat → List α
  | [], _ => []
  | x :: xs, i => if p x i then x :: filterIdx p xs (i + 1) else filterIdx p xs (i + 1)

/-- The loop of `Filter`: `var result S` starts nil, matching elements are
appended. -/
def filterLoop (p : α → Nat → Bool) : List α → Nat → GoSlice α → GoSlice α
  | [], _, acc => acc
  | x :: xs, i, acc => filterLoop p xs (i + 1) (if p x i then goAppend acc x else acc)

/-- `Filter` from `sliceutil.go`: nil in, nil out; otherwise an append loop
starting from the nil zero value. -/
def Filter (s : GoSlice α) (p : α → Nat → Bool) : GoSlice α :=
  match s with
  | none => none
  | some l => filterLoop p l 0 none

theorem toList_none : toList (none : GoSlice α) = [] := rfl

theorem toList_some (l : List α) : toList (some l : GoSlice α) = l := rfl

theorem goAppendList_eq (out : List α) (acc : GoSlice α) :
    goAppendList acc out =
      if acc.isNone && out.isEmpty then none else some (toList acc ++ out) := by
  induction out generalizing acc with
  | nil =>
    cases acc with
    | none => simp [goAppendList]
    | some l => simp [goAppendList, toList]
  | cons x xs ih =>
    simp only [goAppendList, ih, goAppend]
    simp [toList]

theorem filterLoop_eq (p : α → Nat → Bool) (l : List α) (i : Nat) (acc : GoSlice α) :
    filterLoop p l i acc = goAppendList acc (filterIdx p l i) := by
  induction l generalizing i acc with
  | nil => rfl
  | cons x xs ih =>
    by_cases h : p x i = true
    · simp [filterLoop, filterIdx, h, ih, goAppendList]
    · simp only [Bool.not_eq_true] at h
      simp [filterLoop, filterIdx, h, ih]

/-- The `Filter` claim (spec: populated-no-match and present-empty inputs
give an empty non-nil slice) is false: the accumulator is the nil zero
value, so when nothing is appended the function returns nil.  Shown on a
present empty input and on a populated input with no matching element. -/
theorem c1_counterexample :
    Filter (some ([] : List Nat)) (fun _ _ => true) = none ∧
    Filter (some [1, 3, 5]) (fun x _ => x % 2 == 0) = none := by
  constructor <;> rfl

/-- C1 (amended): `Filter(nil, p) = nil`; for a present input `Filter`
returns exactly the elements satisfying the predicate, in order, but when
no element qualifies (including an empty input) the result is the nil
(absent) sentinel, not a non-nil empty slice. -/
theorem c1_filter_amended (p : α → Nat → Bool) (l : List α) :
    Filter (none : GoSlice α) p = none ∧
    Filter (some l) p =
      (if (filterIdx p l 0).isEmpty then none else some (filterIdx p l 0)) := by
  refine ⟨rfl, ?_⟩
  show filterLoop p l 0 none = _
  rw [filterLoop_eq, goAppendList_eq]
  simp only [Option.isNone_none, Bool.true_and, toList_none, List.nil_append]

/-- De-duplication keeping the first occurrence of each value not already
in `seen`, in input order (the order-of-first-occurrence contract). -/
def dedupFirst [DecidableEq α] (seen : List α) : List α → List α
  | [] => []
  | x :: xs => if x ∈ seen then dedupFirst seen xs else x :: dedupFirst (x :: seen) xs

/-- The loop of `Unique`: a `seen` set plus an append loop from the nil
zero value. -/
def uniqueLoop [DecidableEq α] (seen : List α) : List α → GoSlice α → GoSlice α
  | [], acc => acc
  | x :: xs, acc =>
      if x ∈ seen then uniqueLoop seen xs acc
      else uniqueLoop (x :: seen) xs (goAppend acc x)

/-- `Unique` from `sliceutil.go`. -/
def Unique [DecidableEq α] (s : GoSlice α) : GoSlice α :=
  match s with
  | none => none
  | some l => uniqueLoop [] l none

theorem uniqueLoop_eq [DecidableEq α] (l : List α) (seen : List α) (acc : GoSlice α) :
    uniqueLoop seen l acc = goAppendList acc (dedupFirst seen l) := by
  induction l generalizing seen acc with
  | nil => rfl
  | cons x xs ih =>
    by_cases h : x ∈ seen
    · simp [uniqueLoop, dedupFirst, h, ih]
    · simp [uniqueLoop, dedupFirst, h, ih, goAppendList]

/-- C6: `Unique` maps the nil (absent) input to nil, maps the
present-but-empty input to nil as well (not to a non-nil empty slice), and
maps every populated input to the non-nil slice of its elements
de-duplicated in order of first occurrence. -/
theorem c6_unique_semantics [DecidableEq α] :
    Unique (none : GoSlice α) = none ∧
    Unique (some ([] : List α)) = none ∧
    ∀ (x : α) (l : List α), Unique (some (x :: l)) = some (dedupFirst [] (x :: l)) := by
  refine ⟨rfl, rfl, fun x l => ?_⟩
  show uniqueLoop [] (x :: l) none = _
  rw [uniqueLoop_eq, goAppendList_eq]
  simp [dedupFirst, toList]

/-- The loop of `Map`: `result[i] = f(item, i)` over a freshly made slice. -/
def mapLoop (f : α → Nat → β) : List α → Nat → List β
  | [], _ => []
  | x :: xs, i => f x i :: mapLoop f xs (i + 1)

/-- `Map` from `sliceutil.go`: nil in, nil out; otherwise a same-length
slice of mapped elements (non-nil even when empty, since it is `make`d). -/
def Map (s : GoSlice α) (f : α → Nat → β) : GoSlice β :=
  match s with
  | none => none
  | some l => some (mapLoop f l 0)

/-- The loop of `Reduce`. -/
def redLoop (red : R → α → Nat → R) : List α → Nat → R → R
  | [], _, acc => acc
  | x :: xs, i, acc => redLoop red xs (i + 1) (red acc x i)

/-- `Reduce` from `sliceutil.go`: `len == 0` (nil included) short-circuits
to the initial value, otherwise a left fold with the element index. -/
def Reduce (s : GoSlice α) (init : R) (red : R → α → Nat → R) : R :=
  if goLen s = 0 then init else redLoop red (toList s) 0 init

/-- The fused loop of `MapReduce`. -/
def mrLoop (f : α → Nat → M) (red : R → M → Nat → R) : List α → Nat → R → R
  | [], _, acc => acc
  | x :: xs, i, acc => mrLoop f red xs (i + 1) (red acc (f x i) i)

/-- `MapReduce` from the advanced-functions file: single pass, mapping each
element and folding immediately; `len == 0` short-circuits to `initial`. -/
def MapReduce (s : GoSlice α) (f : α → Nat → M) (init : R) (red : R → M → Nat → R) : R :=
  if goLen s = 0 then init else mrLoop f red (toList s) 0 init

theorem mrLoop_eq_redLoop_mapLoop (f : α → Nat → M) (red : R → M → Nat → R)
    (l : List α) (i : Nat) (acc : R) :
    mrLoop f red l i acc = redLoop red (mapLoop f l i) i acc := by
  induction l generalizing i acc with
  | nil => rfl
  | cons x xs ih => simp [mrLoop, mapLoop, redLoop, ih]

/-- C5: for every sequence (absent, empty or populated), mapper, initial
value and reducer, `MapReduce` returns exactly what composing `Map` then
`Reduce` returns, including the short-circuit to the initial value on
absent/empty input. -/
theorem c5_mapreduce_fusion (s : GoSlice α) (f : α → Nat → M) (init : R)
    (red : R → M → Nat → R) :
    MapReduce s f init red = Reduce (Map s f) init red := by
  cases s with
  | none => rfl
  | some l =>
    cases l with
    | nil => rfl
    | cons x xs =>
      show MapReduce (some (x :: xs)) f init red = Reduce (some (mapLoop f (x :: xs) 0)) init red
      simp only [MapReduce, Reduce, goLen, toList, Option.getD_some, mapLoop]
      simp [mrLoop_eq_redLoop_mapLoop, mrLoop, mapLoop, redLoop]

/-- The loop of `Partition`: two append loops from nil zero values. -/
def partLoop (p : α → Nat → Bool) :
    List α → Nat → GoSlice α → GoSlice α → GoSlice α × GoSlice α
  | [], _, m, u => (m, u)
  | x :: xs, i, m, u =>
      if p x i then partLoop p xs (i + 1) (goAppend m x) u
      else partLoop p xs (i + 1) m (goAppend u x)

/-- `Partition` from the advanced-functions file: nil in, `(nil, nil)` out;
otherwise the append loops followed by the normalisation that replaces a
nil side with a non-nil empty slice when the input is populated. -/
def Partition (s : GoSlice α) (p : α → Nat → Bool) : GoSlice α × GoSlice α :=
  match s with
  | none => (none, none)
  | some l =>
      let mu := partLoop p l 0 none none
      let m := if goLen mu.1 = 0 ∧ l.length > 0 then some [] else mu.1
      let u := if goLen mu.2 = 0 ∧ l.length > 0 then some [] else mu.2
      (m, u)

theorem partLoop_eq (p : α → Nat → Bool) (l : List α) (i : Nat) (m u : GoSlice α) :
    partLoop p l i m u =
      (goAppendList m (filterIdx p l i),
       goAppendList u (filterIdx (fun x j => !(p x j)) l i)) := by
  induction l generalizing i m u with
  | nil => rfl
  | cons x xs ih =>
    by_cases h : p x i = true
    · simp [partLoop, filterIdx, h, ih, goAppendList]
    · simp only [Bool.not_eq_true] at h
      simp [partLoop, filterIdx, h, ih, goAppendList]

theorem filterIdx_length_add (p : α → Nat → Bool) (l : List α) (i : Nat) :
    (filterIdx p l i).length + (filterIdx (fun x j => !(p x j)) l i).length = l.length := by
  induction l generalizing i with
  | nil => rfl
  | cons x xs ih =>
    have h1 := ih (i + 1)
    by_cases h : p x i = true
    · simp [filterIdx, h]
      omega
    · simp only [Bool.not_eq_true] at h
      simp [filterIdx, h]
      omega

theorem partition_some_eq (p : α → Nat → Bool) (l : List α) :
    Partition (some l) p =
      ((if (filterIdx p l 0).isEmpty then (if l.isEmpty then none else some []) else
          some (filterIdx p l 0)),
       (if (filterIdx (fun x j => !(p x j)) l 0).isEmpty then
          (if l.isEmpty then none else some []) else
          some (filterIdx (fun x j => !(p x j)) l 0))) := by
  simp only [Partition, partLoop_eq, goAppendList_eq, Option.isNone_none, Bool.true_and,
    toList_none, List.nil_append, Prod.mk.injEq]
  constructor
  · by_cases h : (filterIdx p l 0).isEmpty
    · cases l with
      | nil => simp [h, goLen, toList]
      | cons y ys => simp [h, goLen, toList]
    · cases l with
      | nil =>
        exfalso
        simp [filterIdx] at h
      | cons y ys =>
        simp only [h, if_false]
        simp only [List.isEmpty_iff] at h
        simp [goLen, toList, h]
  · by_cases h : (filterIdx (fun x j => !(p x j)) l 0).isEmpty
    · cases l with
      | nil => simp [h, goLen, toList]
      | cons y ys => simp [h, goLen, toList]
    · cases l with
      | nil =>
        exfalso
        simp [filterIdx] at h
      | cons y ys =>
        simp only [h, if_false]
        simp only [List.isEmpty_iff] at h
        simp [goLen, toList, h]

/-- C8: `Partition` is total — the two sides' lengths sum to the input's
length, the matched side holds exactly the elements satisfying the
predicate in source order and the unmatched side exactly the others in
source order; a nil input yields `(nil, nil)`, and on a populated input
both sides are present (non-nil) slices even when one side is empty. -/
theorem c8_partition_semantics (p : α → Nat → Bool) :
    Partition (none : GoSlice α) p = (none, none) ∧
    (∀ l : List α,
      goLen (Partition (some l) p).1 + goLen (Partition (some l) p).2 = l.length ∧
      toList (Partition (some l) p).1 = filterIdx p l 0 ∧
      toList (Partition (some l) p).2 = filterIdx (fun x j => !(p x j)) l 0) ∧
    ∀ (x : α) (xs : List α),
      (Partition (some (x :: xs)) p).1.isSome = true ∧
      (Partition (some (x :: xs)) p).2.isSome = true := by
  refine ⟨rfl, fun l => ?_, fun x xs => ?_⟩
  · rw [partition_some_eq]
    have hlen := filterIdx_length_add p l 0
    constructor
    · by_cases h1 : (filterIdx p l 0).isEmpty <;>
        by_cases h2 : (filterIdx (fun x j => !(p x j)) l 0).isEmpty <;>
        cases l <;>
        simp_all [goLen, toList, List.isEmpty_iff, filterIdx]
    · constructor
      · by_cases h1 : (filterIdx p l 0).isEmpty <;>
          cases l <;> simp_all [toList, List.isEmpty_iff, filterIdx]
      · by_cases h2 : (filterIdx (fun x j => !(p x j)) l 0).isEmpty <;>
          cases l <;> simp_all [toList, List.isEmpty_iff, filterIdx]
  · rw [partition_some_eq]
    constructor
    · by_cases h1 : (filterIdx p (x :: xs) 0).isEmpty <;> simp [h1]
    · by_cases h2 : (filterIdx (fun x j => !(p x j)) (x :: xs) 0).isEmpty <;> simp [h2]

/-- `Take` from `additional_functions.go`: nil in, nil out; `n <= 0` yields
a non-nil empty slice; `n >= len` yields a full clone; otherwise a clone of
the first `n` elements.  `n` is a Go `int`, modelled as `Int`. -/
def Take (s : GoSlice α) (n : Int) : GoSlice α :=
  match s with
  | none => none
  | some l =>
      if n ≤ 0 then some []
      else if n ≥ (l.length : Int) then goClone (some l)
      else goClone (some (l.take n.toNat))

/-- `Drop` from `additional_functions.go`: nil in, nil out; `n <= 0` yields
a full clone; `n >= len` yields a non-nil empty slice; otherwise a clone
with the first `n` elements removed. -/
def Drop (s : GoSlice α) (n : Int) : GoSlice α :=
  match s with
  | none => none
  | some l =>
      if n ≤ 0 then goClone (some l)
      else if n ≥ (l.length : Int) then some []
      else goClone (some (l.drop n.toNat))

/-- C9: for every slice and every integer `n` (negative, zero, in range or
beyond the length), the elements of `Take(S, n)` followed by those of
`Drop(S, n)` are exactly the elements of `S`, and each of the two results
is the nil (absent) sentinel exactly when `S` is. -/
theorem c9_take_drop_append (s : GoSlice α) (n : Int) :
    toList (Take s n) ++ toList (Drop s n) = toList s ∧
    (Take s n).isNone = s.isNone ∧
    (Drop s n).isNone = s.isNone := by
  cases s with
  | none => simp [Take, Drop, toList]
  | some l =>
    by_cases h0 : n ≤ 0
    · simp [Take, Drop, h0, goClone, toList]
    · by_cases hlen : n ≥ (l.length : Int)
      · simp [Take, Drop, h0, hlen, goClone, toList]
      · simp [Take, Drop, h0, hlen, goClone, toList, List.take_append_drop]

/-- The exclusion list built from the other slices: the net content of the
`exclude` map `Difference` fills from every element of every other slice
(membership is all that the map is consulted for). -/
def excludeList (others : List (GoSlice α)) : List α :=
  others.foldl (fun acc s => acc ++ toList s) []

/-- The loop of `Difference`: an append loop from the nil zero value
keeping the elements not in the exclusion set. -/
def diffLoop [DecidableEq α] (excl : List α) : List α → GoSlice α → GoSlice α
  | [], acc => acc
  | x :: xs, acc =>
      if x ∈ excl then diffLoop excl xs acc else diffLoop excl xs (goAppend acc x)

/-- `Difference` from `additional_functions.go`. -/
def Difference [DecidableEq α] (first : GoSlice α) (others : List (GoSlice α)) : GoSlice α :=
  match first with
  | none => none
  | some l => diffLoop (excludeList others) l none

theorem excludeList_mem_aux (others : List (GoSlice α)) (init : List α) (x : α) :
    (x ∈ others.foldl (fun acc s => acc ++ toList s) init) ↔
      x ∈ init ∨ ∃ s ∈ others, x ∈ toList s := by
  induction others generalizing init with
  | nil => simp
  | cons o os ih =>
    simp only [List.foldl_cons, ih, List.mem_append, List.mem_cons]
    constructor
    · rintro (⟨hx | hx⟩ | ⟨s, hs, hx⟩)
      · exact Or.inl hx
      · exact Or.inr ⟨o, Or.inl rfl, hx⟩
      · exact Or.inr ⟨s, Or.inr hs, hx⟩
    · rintro (hx | ⟨s, hs | hs, hx⟩)
      · exact Or.inl (Or.inl hx)
      · exact Or.inl (Or.inr (hs ▸ hx))
      · exact Or.inr ⟨s, hs, hx⟩

theorem excludeList_mem (others : List (GoSlice α)) (x : α) :
    (x ∈ excludeList others) ↔ ∃ s ∈ others, x ∈ toList s := by
  rw [excludeList, excludeList_mem_aux]
  simp

theorem diffLoop_eq [DecidableEq α] (excl : List α) (l : List α) (acc : GoSlice α) :
    diffLoop excl l acc = goAppendList acc (l.filter (fun x => !(decide (x ∈ excl)))) := by
  induction l generalizing acc with
  | nil => rfl
  | cons x xs ih =>
    by_cases h : x ∈ excl
    · simp [diffLoop, h, ih, List.filter_cons]
    · simp [diffLoop, h, ih, List.filter_cons, goAppendList]

/-- C10: for every non-nil first slice, `Difference` returns the nil
(absent) sentinel exactly when every element of the first slice occurs in
at least one of the other slices — in particular a present-but-empty first
slice, or one whose elements are all excluded, yields nil rather than a
non-nil empty slice. -/
theorem c10_difference_absent [DecidableEq α] (l : List α) (others : List (GoSlice α)) :
    (Difference (some l) others).isNone =
      l.all (fun x => others.any (fun s => decide (x ∈ toList s))) := by
  show (diffLoop (excludeList others) l none).isNone = _
  rw [diffLoop_eq, goAppendList_eq]
  by_cases h : (l.filter (fun x => !(decide (x ∈ excludeList others)))).isEmpty
  · simp only [Option.isNone_none, Bool.true_and, h, if_true]
    simp only [List.isEmpty_iff, List.filter_eq_nil_iff] at h
    symm
    rw [List.all_eq_true]
    intro x hx
    have hmem : x ∈ excludeList others := by
      have := h x hx
      simpa using this
    rw [excludeList_mem] at hmem
    obtain ⟨s, hs, hxs⟩ := hmem
    rw [List.any_eq_true]
    exact ⟨s, hs, by simpa using hxs⟩
  · rw [if_neg (by simpa using h)]
    simp only [Option.isNone_some]
    simp only [List.isEmpty_iff] at h
    obtain ⟨y, hy⟩ := List.exists_mem_of_ne_nil _ h
    rw [List.mem_filter] at hy
    obtain ⟨hx, hpx⟩ := hy
    symm
    rw [Bool.eq_false_iff, Ne, List.all_eq_true]
    intro hall
    have := hall y hx
    rw [List.any_eq_true] at this
    obtain ⟨s, hs, hxs⟩ := this
    have : y ∈ excludeList others := (excludeList_mem others y).mpr ⟨s, hs, by simpa using hxs⟩
    simp [this] at hpx

/-- One `+1` bump of the occurrence-count map at a key. -/
def bump [DecidableEq α] (counts : α → Nat) (x : α) : α → Nat :=
  fun y => if y = x then counts x + 1 else counts y

/-- The per-sequence counting loop of `Intersect`: a `seen` set makes each
distinct value of the sequence bump the count map at most once. -/
def countSeqLoop [DecidableEq α] (seen : List α) (counts : α → Nat) : List α → (α → Nat)
  | [] => counts
  | x :: xs =>
      if x ∈ seen then countSeqLoop seen counts xs
      else countSeqLoop (x :: seen) (bump counts x) xs

/-- The `elementCounts` map of `Intersect`: for each value, in how many of
the other sequences it appears at least once. -/
def elementCounts [DecidableEq α] (rest : List (GoSlice α)) : α → Nat :=
  rest.foldl (fun counts s => countSeqLoop [] counts (toList s)) (fun _ => 0)

/-- The result loop of `Intersect`: append a first-slice element when it is
unseen and its count equals the number of other sequences. -/
def intersectLoop [DecidableEq α] (counts : α → Nat) (need : Nat) (seen : List α) :
    List α → GoSlice α → GoSlice α
  | [], acc => acc
  | x :: xs, acc =>
      if x ∉ seen ∧ counts x = need then
        intersectLoop counts need (x :: seen) xs (goAppend acc x)
      else intersectLoop counts need seen xs acc

/-- `Intersect` from `sliceutil.go`: no sequences gives nil, one sequence
is returned verbatim, otherwise count-filter the first sequence and
normalise an empty result of a non-empty first sequence to a non-nil empty
slice. -/
def Intersect [DecidableEq α] (cs : List (GoSlice α)) : GoSlice α :=
  match cs with
  | [] => none
  | [c] => c
  | c0 :: c1 :: rest =>
      let counts := elementCounts (c1 :: rest)
      let res := intersectLoop counts (c1 :: rest).length [] (toList c0) none
      if goLen res = 0 ∧ 0 < goLen c0 then some [] else res

theorem countSeqLoop_eq [DecidableEq α] (l : List α) (seen : List α) (counts : α → Nat)
    (y : α) :
    countSeqLoop seen counts l y =
      counts y + (if y ∈ l ∧ y ∉ seen then 1 else 0) := by
  induction l generalizing seen counts with
  | nil => simp [countSeqLoop]
  | cons x xs ih =>
    by_cases hx : x ∈ seen
    · rw [countSeqLoop, if_pos hx, ih]
      by_cases hyx : y = x
      · subst hyx
        simp [hx]
      · simp [hyx, List.mem_cons]
    · rw [countSeqLoop, if_neg hx, ih]
      by_cases hyx : y = x
      · subst hyx
        simp [bump, hx, List.mem_cons]
      · simp only [bump, if_neg hyx, List.mem_cons]
        congr 1
        refine if_congr ?_ rfl rfl
        constructor
        · rintro ⟨h1, h2⟩
          exact ⟨Or.inr h1, fun hs => h2 (Or.inr hs)⟩
        · rintro ⟨h1 | h1, h2⟩
          · exact absurd h1 hyx
          · refine ⟨h1, fun hs => ?_⟩
            rcases hs with hs | hs
            · exact hyx hs
            · exact h2 hs

theorem elementCounts_eq [DecidableEq α] (rest : List (GoSlice α)) (y : α) :
    elementCounts rest y =
      (rest.filter (fun s => decide (y ∈ toList s))).length := by
  rw [elementCounts]
  induction rest using List.reverseRecOn with
  | nil => rfl
  | append_singleton os o ih =>
    rw [List.foldl_append, List.foldl_cons, List.foldl_nil, countSeqLoop_eq, ih,
      List.filter_append]
    by_cases h : y ∈ toList o <;> simp [h]

theorem filter_length_eq_iff (p : β → Bool) (l : List β) :
    (l.filter p).length = l.length ↔ ∀ x ∈ l, p x = true := by
  induction l with
  | nil => simp
  | cons x xs ih =>
    by_cases h : p x = true
    · simp [List.filter_cons, h, ih]
    · rw [List.filter_cons, if_neg (by simp [h])]
      simp only [List.length_cons, List.mem_cons]
      constructor
      · intro hlen
        have hle := List.length_filter_le p xs
        omega
      · intro hall
        exact absurd (hall x (Or.inl rfl)) h

theorem intersectLoop_eq [DecidableEq α] (counts : α → Nat) (need : Nat) (l : List α)
    (seen : List α) (acc : GoSlice α) :
    intersectLoop counts need seen l acc =
      goAppendList acc (dedupFirst seen (l.filter (fun x => decide (counts x = need)))) := by
  induction l generalizing seen acc with
  | nil => rfl
  | cons x xs ih =>
    by_cases hs : x ∈ seen <;> by_cases hc : counts x = need
    · rw [intersectLoop, if_neg (by simp [hs]), List.filter_cons, if_pos (by simpa using hc)]
      simp only [dedupFirst]
      rw [if_pos hs]
      exact ih seen acc
    · rw [intersectLoop, if_neg (by simp [hs]), List.filter_cons, if_neg (by simpa using hc)]
      exact ih seen acc
    · rw [intersectLoop, if_pos ⟨hs, hc⟩, List.filter_cons, if_pos (by simpa using hc)]
      simp only [dedupFirst]
      rw [if_neg hs, ih]
      rfl
    · rw [intersectLoop, if_neg (by simp [hc]), List.filter_cons, if_neg (by simpa using hc)]
      exact ih seen acc

/-- C7: `Intersect` of zero sequences is nil; of one sequence is that very
sequence value; of two or more sequences is the first sequence's values
that occur in every other sequence, de-duplicated in order of first
occurrence in the first sequence — and when that list is empty, a
non-empty first sequence gives a non-nil empty slice (an empty or nil
first sequence gives nil). -/
theorem c7_intersect_semantics [DecidableEq α] :
    Intersect ([] : List (GoSlice α)) = none ∧
    (∀ c : GoSlice α, Intersect [c] = c) ∧
    ∀ (c0 c1 : GoSlice α) (rest : List (GoSlice α)),
      Intersect (c0 :: c1 :: rest) =
        (let q := dedupFirst []
          ((toList c0).filter
            (fun x => (c1 :: rest).all (fun s => decide (x ∈ toList s))));
         if q.isEmpty then (if (toList c0).isEmpty then none else some []) else some q) := by
  refine ⟨rfl, fun c => rfl, fun c0 c1 rest => ?_⟩
  have hpred : ∀ x : α,
      decide (elementCounts (c1 :: rest) x = (c1 :: rest).length) =
        (c1 :: rest).all (fun s => decide (x ∈ toList s)) := by
    intro x
    rw [elementCounts_eq]
    cases hb : (c1 :: rest).all (fun s => decide (x ∈ toList s)) with
    | false =>
      rw [decide_eq_false_iff_not]
      intro hlen
      rw [filter_length_eq_iff] at hlen
      have := List.all_eq_true.mpr hlen
      rw [hb] at this
      exact Bool.false_ne_true this
    | true =>
      rw [decide_eq_true_eq]
      exact (filter_length_eq_iff _ _).mpr (List.all_eq_true.mp hb)
  have hfilter :
      (toList c0).filter
          (fun x => decide (elementCounts (c1 :: rest) x = (c1 :: rest).length)) =
        (toList c0).filter
          (fun x => (c1 :: rest).all (fun s => decide (x ∈ toList s))) :=
    List.filter_congr (fun x _ => hpred x)
  simp only [Intersect]
  rw [intersectLoop_eq, hfilter, goAppendList_eq]
  simp only [Option.isNone_none, Bool.true_and, toList_none, List.nil_append]
  generalize dedupFirst []
    ((toList c0).filter (fun x => (c1 :: rest).all (fun s => decide (x ∈ toList s)))) = D
  cases D with
  | nil =>
    cases hc0 : toList c0 with
    | nil => simp [goLen, hc0]
    | cons z zs => simp [goLen, hc0, toList_none]
  | cons z zs => simp [goLen, toList]

/-- Byte-width chosen by `Shuffle` for loop index `i`: the two sequential
`if` statements net to 4 bytes above 65535, 2 above 255, else 1. -/
def maxBytesFor (i : Nat) : Nat :=
  if i > 65535 then 4 else if i > 255 then 2 else 1

/-- `binary.BigEndian.Uint16` on the 2-byte buffer. -/
def beU16 (bs : List Nat) : Nat := bs.getD 0 0 * 256 + bs.getD 1 0

/-- `binary.BigEndian.Uint32` on the 4-byte buffer. -/
def beU32 (bs : List Nat) : Nat :=
  bs.getD 0 0 * 16777216 + bs.getD 1 0 * 65536 + bs.getD 2 0 * 256 + bs.getD 3 0

/-- The parallel assignment `result[i], result[j] = result[j], result[i]`
(identity when an index is out of range, which the loops never hit). -/
def listSwap (l : List α) (i j : Nat) : List α :=
  match l.get? i, l.get? j with
  | some a, some b => (l.set i b).set j a
  | _, _ => l

/-- The Fisher–Yates loop of `Shuffle`, with the entropy source explicit:
`ent k sz` is the outcome of the `k`-th `readRandom` call on a buffer of
`sz` bytes — `none` for an error, `some bs` for the filled bytes.  On an
error the loop stops and returns the current `result`. -/
def shuffleLoop (ent : Nat → Nat → Option (List Nat)) : Nat → Nat → List α → List α
  | _, 0, res => res
  | k, i + 1, res =>
      let sz := maxBytesFor (i + 1)
      match ent k sz with
      | none => res
      | some bs =>
          let v := if sz = 1 then bs.getD 0 0
                   else if sz = 2 then beU16 bs
                   else if sz = 4 then beU32 bs
                   else 0
          shuffleLoop ent (k + 1) i (listSwap res (i + 1) (v % (i + 2)))

/-- `Shuffle` from the advanced-functions file: nil in, nil out; length two
or more runs the Fisher–Yates loop on a clone, from index `length-1` down
to `1`. -/
def Shuffle (ent : Nat → Nat → Option (List Nat)) (s : GoSlice α) : GoSlice α :=
  match s with
  | none => none
  | some l => if l.length ≤ 1 then some l else some (shuffleLoop ent 0 (l.length - 1) l)

/-- Byte-width as the spec words it: 1 byte if `i ≤ 255`, 2 if `i ≤ 65535`,
4 otherwise. -/
def bytesNeeded (i : Nat) : Nat :=
  if i ≤ 255 then 1 else if i ≤ 65535 then 2 else 4

/-- Big-endian value of a byte string, as the spec words it. -/
def beVal (bs : List Nat) : Nat := bs.foldl (fun a b => 256 * a + b) 0

/-- The Fisher–Yates iteration exactly as the claim describes it: request
`bytesNeeded i` bytes, read them big-endian, reduce mod `i+1`, swap. -/
def fisherLoop (ent : Nat → Nat → Option (List Nat)) : Nat → Nat → List α → List α
  | _, 0, res => res
  | k, i + 1, res =>
      match ent k (bytesNeeded (i + 1)) with
      | none => res
      | some bs =>
          fisherLoop ent (k + 1) i (listSwap res (i + 1) (beVal bs % (i + 2)))

theorem maxBytesFor_eq_bytesNeeded (i : Nat) : maxBytesFor i = bytesNeeded i := by
  rw [maxBytesFor, bytesNeeded]
  by_cases h1 : i > 65535
  · rw [if_pos h1, if_neg (by omega), if_neg (by omega)]
  · by_cases h2 : i > 255
    · rw [if_neg h1, if_pos h2, if_neg (by omega), if_pos (by omega)]
    · rw [if_neg h1, if_neg h2, if_pos (by omega)]

theorem beVal_length_one (bs : List Nat) (h : bs.length = 1) : beVal bs = bs.getD 0 0 := by
  cases bs with
  | nil => simp at h
  | cons a t =>
    cases t with
    | nil => simp [beVal]
    | cons b t2 => simp at h

theorem beVal_length_two (bs : List Nat) (h : bs.length = 2) : beVal bs = beU16 bs := by
  cases bs with
  | nil => simp at h
  | cons a t =>
    cases t with
    | nil => simp at h
    | cons b t2 =>
      cases t2 with
      | nil => simp [beVal, beU16]; ring
      | cons c t3 => simp at h

theorem beVal_length_four (bs : List Nat) (h : bs.length = 4) : beVal bs = beU32 bs := by
  cases bs with
  | nil => simp at h
  | cons a t => cases t with
  | nil => simp at h
  | cons b t2 => cases t2 with
  | nil => simp at h
  | cons c t3 => cases t3 with
  | nil => simp at h
  | cons d t4 => cases t4 with
  | nil => simp [beVal, beU32]; ring
  | cons e t5 => simp at h

theorem shuffleLoop_eq_fisherLoop (ent : Nat → Nat → Option (List Nat))
    (hent : ∀ k sz bs, ent k sz = some bs → bs.length = sz)
    (i : Nat) : ∀ (k : Nat) (res : List α),
    shuffleLoop ent k i res = fisherLoop ent k i res := by
  induction i with
  | zero => intro k res; rfl
  | succ i ih =>
    intro k res
    rw [shuffleLoop, fisherLoop, maxBytesFor_eq_bytesNeeded]
    cases hbs : ent k (bytesNeeded (i + 1)) with
    | none => rfl
    | some bs =>
      dsimp only
      have hlen := hent _ _ _ hbs
      have hval : (if bytesNeeded (i + 1) = 1 then bs.getD 0 0
          else if bytesNeeded (i + 1) = 2 then beU16 bs
          else if bytesNeeded (i + 1) = 4 then beU32 bs
          else 0) = beVal bs := by
        rw [bytesNeeded] at hlen ⊢
        by_cases h1 : i + 1 ≤ 255
        · rw [if_pos h1] at hlen
          rw [if_pos h1, if_pos rfl, beVal_length_one bs hlen]
        · by_cases h2 : i + 1 ≤ 65535
          · rw [if_neg h1, if_pos h2] at hlen
            rw [if_neg h1, if_pos h2, if_neg (by omega), if_pos rfl,
              beVal_length_two bs hlen]
          · rw [if_neg h1, if_neg h2] at hlen
            rw [if_neg h1, if_neg h2, if_neg (by omega), if_neg (by omega), if_pos rfl,
              beVal_length_four bs hlen]
      rw [hval]
      exact ih (k + 1) (listSwap res (i + 1) (beVal bs % (i + 2)))

/-- C4: for every entropy source honouring the byte-count contract and
every input of length at least two, `Shuffle` is exactly the Fisher–Yates
iteration the claim describes — `i` from `length-1` down to `1`, requesting
1 byte when `i ≤ 255`, 2 when `i ≤ 65535`, 4 otherwise, read big-endian,
reduced mod `i+1`, then swapping positions `i` and `j`. -/
theorem c4_shuffle_fisher_yates (ent : Nat → Nat → Option (List Nat))
    (hent : ∀ k sz bs, ent k sz = some bs → bs.length = sz)
    (a b : α) (l : List α) :
    Shuffle ent (some (a :: b :: l)) = some (fisherLoop ent 0 (l.length + 1) (a :: b :: l)) := by
  rw [Shuffle]
  rw [if_neg (by simp)]
  rw [show (a :: b :: l).length - 1 = l.length + 1 by simp]
  rw [shuffleLoop_eq_fisherLoop ent hent]

/-- Witness for C4 at a concrete entropy source (every request answered
with that many `3` bytes) and the concrete input `[10, 20, 30]`. -/
theorem c4_shuffle_fisher_yates_witness :
    Shuffle (fun _ sz => some (List.replicate sz 3)) (some [10, 20, 30]) =
      some (fisherLoop (fun _ sz => some (List.replicate sz 3)) 0 2 [10, 20, 30]) :=
  c4_shuffle_fisher_yates (fun _ sz => some (List.replicate sz 3))
    (fun k sz bs h => by
      have : bs = List.replicate sz 3 := by
        have := h
        simp only [Option.some_inj] at this
        exact this.symm
      rw [this, List.length_replicate])
    10 20 [30]

/-- The entropy source of the C2 failing input: the first request succeeds
with the single byte `0`, the second request fails. -/
def entFailSecond : Nat → Nat → Option (List Nat) :=
  fun k _ => if k = 0 then some [0] else none

/-- C2 (code bug): on input `[0, 1, 2]` with entropy that succeeds once
(byte `0`, so the first step swaps positions 2 and 0) and then fails,
`Shuffle` returns `[2, 1, 0]` — the swaps already performed are kept, not
the original order the claim (and the code's own comment "return the
unshuffled clone") promises. -/
theorem c2_shuffle_error_keeps_swaps :
    Shuffle entFailSecond (some [0, 1, 2]) = some [2, 1, 0] ∧
    entFailSecond 1 1 = none := by
  constructor <;> rfl

/-!
Aliasing model for `Chunk`.  A heap is a list of backing arrays; a slice
header is an array id, an offset and a length — exactly the data a Go
slice header carries.  `Chunk` appends `collection[i:end]`, a header with
the same array id, so whether the groups are new allocations is visible in
this model.
-/

/-- The heap: backing arrays indexed by id. -/
abbrev Heap (α : Type) := List (List α)

/-- A Go slice header: backing-array id, offset, length. -/
structure SliceView where
  base : Nat
  off : Nat
  len : Nat
deriving DecidableEq, Repr

/-- Read element `i` of a slice through its header. -/
def readView (h : Heap α) (v : SliceView) (i : Nat) : Option α :=
  (h.getD v.base []).get? (v.off + i)

/-- Write element `i` of a slice through its header (in-place: the backing
array is updated). -/
def writeView (h : Heap α) (v : SliceView) (i : Nat) (a : α) : Heap α :=
  h.set v.base ((h.getD v.base []).set (v.off + i) a)

/-- The elements a header denotes. -/
def viewList (h : Heap α) (v : SliceView) : List α :=
  ((h.getD v.base []).drop v.off).take v.len

/-- The chunking loop of `Chunk`: each appended group is
`collection[i:end]` — a header with the input's array id at offset `i`,
never a copy.  (The `size = 0` guard is unreachable: `Chunk` returns nil
before the loop when `size < 1`.) -/
def chunkAux (base : Nat) (off rem size : Nat) : List SliceView :=
  if size = 0 then []
  else if rem = 0 then []
  else
    let l := min size rem
    ⟨base, off, l⟩ :: chunkAux base (off + l) (rem - l) size
termination_by rem
decreasing_by
  simp_wf
  omega

/-- `Chunk` from `sliceutil.go` over slice headers: nil out when the input
is nil (modelled as the caller passing no header) is handled by the caller;
here `size < 1` gives nil, a zero-length input gives a present empty outer
slice, and otherwise the loop of subslice headers.  `size` is a Go `int`,
modelled as `Int`. -/
def Chunk (v : SliceView) (size : Int) : Option (List SliceView) :=
  if size < 1 then none
  else if v.len = 0 then some []
  else some (chunkAux v.base v.off v.len size.toNat)

/-- Splitting a list into groups of `size` (final group shorter), the
contents the spec expects of the groups. -/
def chunkList (l : List α) (size : Nat) : List (List α) :=
  if size = 0 then []
  else if l.isEmpty then []
  else l.take size :: chunkList (l.drop size) size
termination_by l.length
decreasing_by
  simp_wf
  rename_i hsz hne
  rw [List.isEmpty_iff] at hne
  cases l with
  | nil => exact absurd rfl hne
  | cons x xs => simp; omega

/-- C3's "each group returned by Chunk is a new allocation independent of
the input's storage" is false: on heap `[[1,2,3]]` with the input header
`⟨0,0,3⟩` and size 2, the first group is the header `⟨0,0,2⟩` — the same
backing array as the input — and writing `99` through the group at index 0
changes what the input reads at index 0 from `1` to `99`. -/
theorem c3_counterexample :
    Chunk ⟨0, 0, 3⟩ 2 = some [⟨0, 0, 2⟩, ⟨0, 2, 1⟩] ∧
    (⟨0, 0, 2⟩ : SliceView).base = (⟨0, 0, 3⟩ : SliceView).base ∧
    readView (([[1, 2, 3]] : Heap Nat)) ⟨0, 0, 3⟩ 0 = some 1 ∧
    readView (writeView ([[1, 2, 3]] : Heap Nat) ⟨0, 0, 2⟩ 0 99) ⟨0, 0, 3⟩ 0 = some 99 := by
  refine ⟨?_, rfl, rfl, rfl⟩
  rw [Chunk, if_neg (by norm_num), if_neg (by norm_num)]
  show some (chunkAux 0 0 3 2) = some [⟨0, 0, 2⟩, ⟨0, 2, 1⟩]
  rw [chunkAux]
  norm_num
  rw [chunkAux]
  norm_num
  rw [chunkAux]
  norm_num

theorem chunkAux_base (base size : Nat) :
    ∀ rem off, ∀ g ∈ chunkAux base off rem size, g.base = base := by
  intro rem
  induction rem using Nat.strong_induction_on with
  | _ rem ih =>
    intro off g hg
    rw [chunkAux] at hg
    by_cases hsz : size = 0
    · rw [if_pos hsz] at hg
      simp at hg
    · rw [if_neg hsz] at hg
      by_cases hr : rem = 0
      · rw [if_pos hr] at hg
        simp at hg
      · rw [if_neg hr] at hg
        simp only [List.mem_cons] at hg
        rcases hg with hg | hg
        · rw [hg]
        · exact ih (rem - min size rem) (by omega) (off + min size rem) g hg

theorem take_drop_chunk_step (A : List α) (off rem size : Nat) :
    ((A.drop off).take rem).drop size =
      (A.drop (off + min size rem)).take (rem - min size rem) := by
  by_cases hc : size ≤ rem
  · rw [min_eq_left hc, List.drop_take, List.drop_drop]
  · rw [min_eq_right (by omega : rem ≤ size), Nat.sub_self, List.take_zero]
    exact List.drop_eq_nil_of_le (by rw [List.length_take, List.length_drop]; omega)

theorem chunkAux_viewList (h : Heap α) (base size : Nat) (hsz : size ≠ 0) :
    ∀ rem off, off + rem ≤ (h.getD base []).length →
      (chunkAux base off rem size).map (viewList h) =
        chunkList (((h.getD base []).drop off).take rem) size := by
  intro rem
  induction rem using Nat.strong_induction_on with
  | _ rem ih =>
    intro off hbound
    rw [chunkAux, if_neg hsz]
    by_cases hr : rem = 0
    · rw [if_pos hr, chunkList, if_neg hsz, if_pos (by simp [hr])]
      rfl
    · rw [if_neg hr]
      have hlenV : (((h.getD base []).drop off).take rem).length = rem := by
        rw [List.length_take, List.length_drop]
        omega
      rw [chunkList, if_neg hsz,
        if_neg (by rw [List.isEmpty_iff]; intro he; rw [he] at hlenV; simp at hlenV; omega)]
      simp only [List.map_cons]
      rw [ih (rem - min size rem) (by omega) (off + min size rem) (by omega),
        ← take_drop_chunk_step (h.getD base []) off rem size]
      simp [viewList, List.take_take]

/-- C3 (amended): `Chunk` never writes the heap (its model is a pure
function of the headers), its groups carry exactly the chunked contents of
the input, but — unlike every other operation — each group is a subslice
header sharing the input's backing array (`g.base = v.base`), not a new
allocation independent of the input's storage; only the outer slice is
new.  Stated for an in-bounds header and a positive size `s + 1`. -/
theorem c3_chunk_views_amended (h : Heap α) (base off rem s : Nat)
    (hbound : off + rem ≤ (h.getD base []).length) :
    (∀ g ∈ chunkAux base off rem (s + 1), g.base = base) ∧
    (chunkAux base off rem (s + 1)).map (viewList h) =
      chunkList (viewList h ⟨base, off, rem⟩) (s + 1) ∧
    Chunk ⟨base, off, rem⟩ ((s : Int) + 1) =
      (if rem = 0 then some [] else some (chunkAux base off rem (s + 1))) := by
  refine ⟨chunkAux_base base (s + 1) rem off, ?_, ?_⟩
  · rw [chunkAux_viewList h base (s + 1) (by omega) rem off hbound]
    rfl
  · rw [Chunk]
    rw [if_neg (by omega)]
    have : ((s : Int) + 1).toNat = s + 1 := by omega
    rw [this]

/-- Witness for C3's amended theorem: heap `[[1,2,3]]`, input header
`⟨0,0,3⟩`, size 2. -/
theorem c3_chunk_views_amended_witness :
    (0 + 3 ≤ (([[1, 2, 3]] : Heap Nat).getD 0 []).length) ∧
    ((∀ g ∈ chunkAux 0 0 3 (1 + 1), g.base = 0) ∧
     (chunkAux 0 0 3 (1 + 1)).map (viewList ([[1, 2, 3]] : Heap Nat)) =
       chunkList (viewList ([[1, 2, 3]] : Heap Nat) ⟨0, 0, 3⟩) (1 + 1) ∧
     Chunk ⟨0, 0, 3⟩ ((1 : Int) + 1) =
       (if (3 : Nat) = 0 then some [] else some (chunkAux 0 0 3 (1 + 1)))) :=
  ⟨by decide, c3_chunk_views_amended ([[1, 2, 3]] : Heap Nat) 0 0 3 1 (by decide)⟩

end ScgSupport
